import Mathlib

/-!
# Verification of the tike ptychography core

A shallow embedding, over exact arithmetic, of the probe-mode routines in
`src/tike/ptycho/probe.py` and the ePIE solver in
`src/tike/ptycho/solvers/epie.py`.

Complex numbers (numpy `complex64` values) are modelled exactly as pairs of
rationals with complex-number arithmetic (`Cq` below).  Arrays are modelled as
functions out of `Fin` index types: the leading batch axes of the numpy
arrays, along which every routine acts pointwise and independently, are
dropped, and the trailing spatial axes are either kept (pixels indexed by row
and column) or pre-flattened (a single flattened-vector axis), matching the
`reshape` views the code itself takes.  Division is total in Lean (division by
zero yields zero) where Python would produce `inf`/`nan`; every theorem that
depends on a quotient carries the hypothesis that the denominator is nonzero.
-/

namespace Tike

/-- A complex number with exact rational real and imaginary parts; the exact
model of a numpy `complex64` scalar. -/
@[ext] structure Cq where
  re : ℚ
  im : ℚ
  deriving DecidableEq

namespace Cq

instance : Zero Cq := ⟨⟨0, 0⟩⟩
instance : One Cq := ⟨⟨1, 0⟩⟩
instance : Add Cq := ⟨fun a b => ⟨a.re + b.re, a.im + b.im⟩⟩
instance : Neg Cq := ⟨fun a => ⟨-a.re, -a.im⟩⟩
instance : Sub Cq := ⟨fun a b => ⟨a.re - b.re, a.im - b.im⟩⟩
instance : Mul Cq := ⟨fun a b => ⟨a.re * b.re - a.im * b.im, a.re * b.im + a.im * b.re⟩⟩

/-- Embed a real (rational) scalar as a complex number. -/
def ofRat (r : ℚ) : Cq := ⟨r, 0⟩

/-- Complex conjugate (`np.conj`). -/
def conj (a : Cq) : Cq := ⟨a.re, -a.im⟩

/-- Squared magnitude (`np.abs(z)**2`, or `(z * z.conj()).real`). -/
def normSq (a : Cq) : ℚ := a.re ^ 2 + a.im ^ 2

instance : Inv Cq := ⟨fun a => ⟨a.re / normSq a, -a.im / normSq a⟩⟩
instance : Div Cq := ⟨fun a b => a * b⁻¹⟩

@[simp] theorem zero_re : (0 : Cq).re = 0 := rfl
@[simp] theorem zero_im : (0 : Cq).im = 0 := rfl
@[simp] theorem one_re : (1 : Cq).re = 1 := rfl
@[simp] theorem one_im : (1 : Cq).im = 0 := rfl
@[simp] theorem add_re (a b : Cq) : (a + b).re = a.re + b.re := rfl
@[simp] theorem add_im (a b : Cq) : (a + b).im = a.im + b.im := rfl
@[simp] theorem neg_re (a : Cq) : (-a).re = -a.re := rfl
@[simp] theorem neg_im (a : Cq) : (-a).im = -a.im := rfl
@[simp] theorem sub_re (a b : Cq) : (a - b).re = a.re - b.re := rfl
@[simp] theorem sub_im (a b : Cq) : (a - b).im = a.im - b.im := rfl
@[simp] theorem mul_re (a b : Cq) : (a * b).re = a.re * b.re - a.im * b.im := rfl
@[simp] theorem mul_im (a b : Cq) : (a * b).im = a.re * b.im + a.im * b.re := rfl
@[simp] theorem inv_re (a : Cq) : a⁻¹.re = a.re / normSq a := rfl
@[simp] theorem inv_im (a : Cq) : a⁻¹.im = -a.im / normSq a := rfl
@[simp] theorem conj_re (a : Cq) : (conj a).re = a.re := rfl
@[simp] theorem conj_im (a : Cq) : (conj a).im = -a.im := rfl
@[simp] theorem ofRat_re (r : ℚ) : (ofRat r).re = r := rfl
@[simp] theorem ofRat_im (r : ℚ) : (ofRat r).im = 0 := rfl

instance : CommRing Cq where
  add_assoc a b c := by ext <;> simp <;> ring
  zero_add a := by ext <;> simp
  add_zero a := by ext <;> simp
  add_comm a b := by ext <;> simp <;> ring
  left_distrib a b c := by ext <;> simp <;> ring
  right_distrib a b c := by ext <;> simp <;> ring
  zero_mul a := by ext <;> simp
  mul_zero a := by ext <;> simp
  mul_assoc a b c := by ext <;> simp <;> ring
  one_mul a := by ext <;> simp
  mul_one a := by ext <;> simp
  mul_comm a b := by ext <;> simp <;> ring
  neg_add_cancel a := by ext <;> simp
  sub_eq_add_neg a b := by ext <;> simp <;> ring
  nsmul := nsmulRec
  zsmul := zsmulRec

theorem normSq_eq_zero {a : Cq} : normSq a = 0 ↔ a = 0 := by
  constructor
  · intro h
    simp only [normSq] at h
    have h1 : a.re ^ 2 = 0 :=
      le_antisymm (by nlinarith [sq_nonneg a.im]) (sq_nonneg a.re)
    have h2 : a.im ^ 2 = 0 :=
      le_antisymm (by nlinarith [sq_nonneg a.re]) (sq_nonneg a.im)
    ext
    · exact pow_eq_zero_iff two_ne_zero |>.mp h1
    · exact pow_eq_zero_iff two_ne_zero |>.mp h2
  · intro h
    subst h
    simp [normSq]

theorem normSq_ne_zero {a : Cq} (h : a ≠ 0) : normSq a ≠ 0 :=
  fun hz => h (normSq_eq_zero.mp hz)

instance : Field Cq where
  exists_pair_ne := ⟨0, 1, by decide⟩
  mul_inv_cancel a ha := by
    have hn : normSq a ≠ 0 := normSq_ne_zero ha
    ext
    · simp only [mul_re, inv_re, inv_im, one_re]
      field_simp
      simp [normSq]
      ring
    · simp only [mul_im, inv_re, inv_im, one_im]
      field_simp
      ring
  inv_zero := by ext <;> simp
  nnqsmul := _
  qsmul := _

@[simp] theorem natCast_re (n : ℕ) : ((n : ℕ) : Cq).re = (n : ℚ) := by
  induction n with
  | zero => simp [Nat.cast_zero]
  | succ n ih => rw [Nat.cast_succ, Nat.cast_succ, add_re, ih, one_re]

@[simp] theorem natCast_im (n : ℕ) : ((n : ℕ) : Cq).im = 0 := by
  induction n with
  | zero => simp [Nat.cast_zero]
  | succ n ih => rw [Nat.cast_succ, add_im, ih, one_im, add_zero]

@[simp] theorem ofNat_re (n : ℕ) [n.AtLeastTwo] :
    (no_index (OfNat.ofNat n) : Cq).re = OfNat.ofNat n := by
  rw [show (OfNat.ofNat n : Cq) = ((n : ℕ) : Cq) from rfl, natCast_re]
  norm_cast

@[simp] theorem ofNat_im (n : ℕ) [n.AtLeastTwo] :
    (no_index (OfNat.ofNat n) : Cq).im = 0 := by
  rw [show (OfNat.ofNat n : Cq) = ((n : ℕ) : Cq) from rfl, natCast_im]

@[simp] theorem normSq_mul (a b : Cq) : normSq (a * b) = normSq a * normSq b := by
  simp only [normSq, mul_re, mul_im]
  ring

/-- Conjugation as a ring homomorphism (used to push `conj` through sums). -/
def conjHom : Cq →+* Cq where
  toFun := conj
  map_one' := by ext <;> simp
  map_mul' := fun a b => by ext <;> simp <;> ring
  map_zero' := by ext <;> simp
  map_add' := fun a b => by ext <;> simp <;> ring

@[simp] theorem conjHom_apply (a : Cq) : conjHom a = conj a := rfl

theorem conj_mul (a b : Cq) : conj (a * b) = conj a * conj b := by
  ext <;> simp <;> ring

theorem conj_conj (a : Cq) : conj (conj a) = a := by ext <;> simp

@[simp] theorem conj_zero : conj (0 : Cq) = 0 := by ext <;> simp

theorem conj_eq_zero {a : Cq} : conj a = 0 ↔ a = 0 := by
  constructor
  · intro h
    ext
    · have := congrArg Cq.re h
      simpa using this
    · have := congrArg Cq.im h
      simp at this
      simpa using this
  · intro h
    subst h
    simp

end Cq

open Cq

/-! ## Complex inner product

`probe.py` line 52-54: `inner(x, y) = np.sum(np.conj(x) * y, axis=axis)`,
taken along the flattened trailing (vector) axis. -/

/-- The complex inner product of two flattened vectors: the local `inner`
helper of `orthogonalize_gs` with `axis=-1`. -/
def inner {N : ℕ} (u v : Fin N → Cq) : Cq := ∑ k, conj (u k) * v k

theorem inner_sub_right {N : ℕ} (u v w : Fin N → Cq) :
    inner u (fun k => v k - w k) = inner u v - inner u w := by
  simp only [inner, mul_sub]
  exact Finset.sum_sub_distrib

theorem inner_sum_right {N : ℕ} {ι : Type} (u : Fin N → Cq) (s : Finset ι)
    (f : ι → Fin N → Cq) :
    inner u (fun k => ∑ j in s, f j k) = ∑ j in s, inner u (f j) := by
  simp only [inner, Finset.mul_sum]
  exact Finset.sum_comm

theorem inner_mul_div_right {N : ℕ} (u v : Fin N → Cq) (a b : Cq) :
    inner u (fun k => v k * a / b) = inner u v * a / b := by
  simp only [inner, div_eq_mul_inv, Finset.sum_mul]
  exact Finset.sum_congr rfl fun k _ => by ring

theorem inner_conj_comm {N : ℕ} (u v : Fin N → Cq) :
    inner v u = conj (inner u v) := by
  simp only [inner]
  rw [show (conj (∑ k, conj (u k) * v k)) = conjHom (∑ k, conj (u k) * v k) from rfl,
    map_sum]
  refine Finset.sum_congr rfl fun k _ => ?_
  simp only [conjHom_apply, conj_mul, conj_conj]
  ring

/-! ## Gram-Schmidt orthogonalization (`orthogonalize_gs`, probe.py 39-77)

The numpy code reshapes `x` to `(..., nmodes, flat)` (a view) and then, for
`i = 1, ..., nmodes-1` in order, subtracts from mode `i` the sum over
`j' < i` of `u_j' * inner(u_j', v_i) / inner(u_j', u_j')`, where `u_j'` is
mode `j'` as already updated in place by earlier iterations.  We model one
batch element as a function `Fin M → Fin N → Cq` (mode index, flattened
vector index); the leading batch axes act pointwise and are dropped, and the
`ndim` trailing axes are pre-flattened into `Fin N` exactly as the code's
`reshape` does. -/

/-- One iteration of the `for i in range(1, nmodes)` loop of
`orthogonalize_gs`: subtract from mode `i` its projections onto all modes
below `i` (`projections = u * inner(u, v) / inner(u, u)`;
`x_ortho[..., i:i+1, :] -= np.sum(projections, axis=-2)`). -/
def gsStep {M N : ℕ} (x : Fin M → Fin N → Cq) (i : Fin M) : Fin M → Fin N → Cq :=
  fun j =>
    if j = i then
      fun k => x i k -
        ∑ j2 in Finset.univ.filter (fun j2 : Fin M => j2 < i),
          x j2 k * inner (x j2) (x i) / inner (x j2) (x j2)
    else x j

/-- The first `n` iterations of the projection-subtraction loop: `gsPass x n`
is the state of `x_ortho` after the loop has processed modes `1, ..., n`. -/
def gsPass {M N : ℕ} (x : Fin M → Fin N → Cq) : ℕ → (Fin M → Fin N → Cq)
  | 0 => x
  | n + 1 => if h : n + 1 < M then gsStep (gsPass x n) ⟨n + 1, h⟩ else gsPass x n

/-- `orthogonalize_gs` on one batch element (modes already flattened): run the
loop over modes `1, ..., nmodes - 1`. -/
def orthogonalize_gs {M N : ℕ} (x : Fin M → Fin N → Cq) : Fin M → Fin N → Cq :=
  gsPass x (M - 1)

/-- `orthogonalize_gs` with its `ndim` domain check (probe.py 49-50): the
`raise ValueError` when `ndim < 1` is modelled as `none`; otherwise the
computation proceeds on the flattened view. -/
def orthogonalize_gs_checked {M N : ℕ} (ndim : ℕ) (x : Fin M → Fin N → Cq) :
    Option (Fin M → Fin N → Cq) :=
  if ndim < 1 then none else some (orthogonalize_gs x)

theorem gsStep_apply_ne {M N : ℕ} (x : Fin M → Fin N → Cq) (i j : Fin M)
    (h : j ≠ i) : gsStep x i j = x j := by
  simp [gsStep, h]

/-- Mode 0 is never overwritten by the loop. -/
theorem gsPass_apply_zero {M N : ℕ} (x : Fin M → Fin N → Cq) (n : ℕ)
    (j : Fin M) (hj : (j : ℕ) = 0) : gsPass x n j = x j := by
  induction n with
  | zero => rfl
  | succ n ih =>
    rw [gsPass]
    by_cases h : n + 1 < M
    · rw [dif_pos h, gsStep_apply_ne]
      · exact ih
      · intro he
        have : (j : ℕ) = n + 1 := congrArg Fin.val he
        omega
    · rw [dif_neg h]
      exact ih

/-- Modes above the last processed index are untouched. -/
theorem gsPass_apply_high {M N : ℕ} (x : Fin M → Fin N → Cq) (n : ℕ)
    (j : Fin M) (hj : n < (j : ℕ)) : gsPass x n j = x j := by
  induction n with
  | zero => rfl
  | succ n ih =>
    rw [gsPass]
    by_cases h : n + 1 < M
    · rw [dif_pos h, gsStep_apply_ne]
      · exact ih (by omega)
      · intro he
        have : (j : ℕ) = n + 1 := congrArg Fin.val he
        omega
    · rw [dif_neg h]
      exact ih (by omega)

/-- Once the loop has processed mode `j`, later iterations never change it. -/
theorem gsPass_apply_frozen {M N : ℕ} (x : Fin M → Fin N → Cq) {n n2 : ℕ}
    (hn : n ≤ n2) (j : Fin M) (hj : (j : ℕ) ≤ n) :
    gsPass x n2 j = gsPass x n j := by
  induction n2 with
  | zero =>
    have : n = 0 := by omega
    subst this
    rfl
  | succ n2 ih =>
    by_cases he : n = n2 + 1
    · subst he
      rfl
    · have hn2 : n ≤ n2 := by omega
      rw [gsPass]
      by_cases h : n2 + 1 < M
      · rw [dif_pos h, gsStep_apply_ne]
        · exact ih hn2
        · intro hee
          have : (j : ℕ) = n2 + 1 := congrArg Fin.val hee
          omega
      · rw [dif_neg h]
        exact ih hn2

/-- The key Gram-Schmidt step computation: subtracting the projections onto
the (pairwise-orthogonal, nonzero) modes below `t` makes mode `t` orthogonal
to each of them. -/
theorem gsStep_inner_zero {M N : ℕ} (cur : Fin M → Fin N → Cq) (n : ℕ)
    (t i : Fin M) (ht : (t : ℕ) = n + 1) (hi : (i : ℕ) ≤ n)
    (horth : ∀ a b : Fin M, (a : ℕ) ≤ n → (b : ℕ) ≤ n → a ≠ b →
      inner (cur a) (cur b) = 0)
    (hself : inner (cur i) (cur i) ≠ 0) :
    inner (cur i) (gsStep cur t t) = 0 := by
  have hit : i < t := by
    rw [Fin.lt_def]
    omega
  have hstep : gsStep cur t t = fun k => cur t k -
      ∑ j2 in Finset.univ.filter (fun j2 : Fin M => j2 < t),
        cur j2 k * inner (cur j2) (cur t) / inner (cur j2) (cur j2) := by
    simp [gsStep]
  rw [hstep, inner_sub_right, inner_sum_right]
  have hmem : i ∈ Finset.univ.filter (fun j2 : Fin M => j2 < t) :=
    Finset.mem_filter.mpr ⟨Finset.mem_univ i, hit⟩
  have hterm : ∀ b ∈ Finset.univ.filter (fun j2 : Fin M => j2 < t), b ≠ i →
      inner (cur i)
        (fun k => cur b k * inner (cur b) (cur t) / inner (cur b) (cur b)) = 0 := by
    intro b hb hbne
    have hble : (b : ℕ) ≤ n := by
      have hbt : b < t := (Finset.mem_filter.mp hb).2
      rw [Fin.lt_def] at hbt
      omega
    rw [inner_mul_div_right, horth i b hi hble (Ne.symm hbne), zero_mul, zero_div]
  have h2 : (∑ j2 in Finset.univ.filter (fun j2 : Fin M => j2 < t),
        inner (cur i)
          (fun k => cur j2 k * inner (cur j2) (cur t) / inner (cur j2) (cur j2))) =
      inner (cur i)
        (fun k => cur i k * inner (cur i) (cur t) / inner (cur i) (cur i)) :=
    Finset.sum_eq_single_of_mem i hmem hterm
  have h3 : inner (cur i)
      (fun k => cur i k * inner (cur i) (cur t) / inner (cur i) (cur i)) =
      inner (cur i) (cur t) := by
    rw [inner_mul_div_right, mul_comm, mul_div_assoc, div_self hself, mul_one]
  rw [h3] at h2
  linear_combination -h2

/-- After the loop has processed modes `1, ..., n`, all processed modes are
pairwise orthogonal, provided every already-processed output mode has nonzero
self inner product (the quantities `orthogonalize_gs` divides by). -/
theorem gsPass_orthogonal {M N : ℕ} (x : Fin M → Fin N → Cq)
    (hself : ∀ j : Fin M, (j : ℕ) < M - 1 →
      inner (orthogonalize_gs x j) (orthogonalize_gs x j) ≠ 0) :
    ∀ n, n ≤ M - 1 → ∀ i j : Fin M, (i : ℕ) ≤ n → (j : ℕ) ≤ n → i ≠ j →
      inner (gsPass x n i) (gsPass x n j) = 0 := by
  intro n
  induction n with
  | zero =>
    intro _ i j hi hj hij
    exact absurd (Fin.val_injective (by omega)) hij
  | succ n ih =>
    intro hn i j hi hj hij
    have hM : n + 1 < M := by omega
    have hpass : gsPass x (n + 1) = gsStep (gsPass x n) ⟨n + 1, hM⟩ := by
      rw [gsPass, dif_pos hM]
    have hcurself : ∀ a : Fin M, (a : ℕ) ≤ n →
        inner (gsPass x n a) (gsPass x n a) ≠ 0 := by
      intro a ha
      have hfroz : gsPass x (M - 1) a = gsPass x n a :=
        gsPass_apply_frozen x (by omega) a ha
      have := hself a (by omega)
      rw [orthogonalize_gs, hfroz] at this
      exact this
    have hkey : ∀ a : Fin M, (a : ℕ) ≤ n →
        inner (gsPass x n a) (gsStep (gsPass x n) ⟨n + 1, hM⟩ ⟨n + 1, hM⟩) = 0 :=
      fun a ha =>
        gsStep_inner_zero (gsPass x n) n ⟨n + 1, hM⟩ a rfl ha
          (fun a b ha hb hab => ih (by omega) a b ha hb hab) (hcurself a ha)
    rw [hpass]
    rcases Nat.lt_or_ge (i : ℕ) (n + 1) with hi2 | hi2
    · have hine : i ≠ ⟨n + 1, hM⟩ := by
        intro he
        have : (i : ℕ) = n + 1 := congrArg Fin.val he
        omega
      rcases Nat.lt_or_ge (j : ℕ) (n + 1) with hj2 | hj2
      · have hjne : j ≠ ⟨n + 1, hM⟩ := by
          intro he
          have : (j : ℕ) = n + 1 := congrArg Fin.val he
          omega
        rw [gsStep_apply_ne _ _ _ hine, gsStep_apply_ne _ _ _ hjne]
        exact ih (by omega) i j (by omega) (by omega) hij
      · have hje : j = ⟨n + 1, hM⟩ := by
          apply Fin.val_injective
          show (j : ℕ) = n + 1
          omega
        rw [gsStep_apply_ne _ _ _ hine, hje]
        exact hkey i (by omega)
    · have hie : i = ⟨n + 1, hM⟩ := by
        apply Fin.val_injective
        show (i : ℕ) = n + 1
        omega
      rcases Nat.lt_or_ge (j : ℕ) (n + 1) with hj2 | hj2
      · have hjne : j ≠ ⟨n + 1, hM⟩ := by
          intro he
          have : (j : ℕ) = n + 1 := congrArg Fin.val he
          omega
        rw [gsStep_apply_ne _ _ _ hjne, hie, inner_conj_comm,
          hkey j (by omega), Cq.conj_zero]
      · exact absurd (Fin.val_injective (by omega)) hij

/-- Concrete two-mode input (flattened vectors of length 1) used to
instantiate the Gram-Schmidt theorems. -/
def gsWitnessX : Fin 2 → Fin 1 → Cq :=
  fun j _ => if (j : ℕ) = 0 then ⟨1, 0⟩ else ⟨1, 1⟩

/-- C1: For every input array to `orthogonalize_gs` with `M ≥ 2` modes, with
each already-processed mode (indices `0 .. M-2` of the output) having nonzero
self inner product, every pairwise complex inner product between distinct
output modes has magnitude below `1e-5`; in the exact arithmetic of this
embedding the inner product is exactly zero, so its squared magnitude is
below `1e-10 = (1e-5)^2`. -/
theorem orthogonalize_gs_pairwise_orthogonal {M N : ℕ} (x : Fin M → Fin N → Cq)
    (hM : 2 ≤ M)
    (hself : ∀ j : Fin M, (j : ℕ) < M - 1 →
      inner (orthogonalize_gs x j) (orthogonalize_gs x j) ≠ 0)
    (i j : Fin M) (hij : i ≠ j) :
    Cq.normSq (inner (orthogonalize_gs x i) (orthogonalize_gs x j)) <
      1 / 10 ^ 10 := by
  have hi := i.isLt
  have hj := j.isLt
  have h0 : inner (orthogonalize_gs x i) (orthogonalize_gs x j) = 0 :=
    gsPass_orthogonal x hself (M - 1) le_rfl i j (by omega) (by omega) hij
  rw [h0]
  norm_num [Cq.normSq]

/-- Witness for C1 on a concrete two-mode input. -/
theorem orthogonalize_gs_pairwise_orthogonal_witness :
    Cq.normSq (inner (orthogonalize_gs gsWitnessX 0) (orthogonalize_gs gsWitnessX 1)) <
      1 / 10 ^ 10 := by
  refine orthogonalize_gs_pairwise_orthogonal gsWitnessX (by norm_num) ?_ 0 1
    (by decide)
  intro j hj
  have hj0 : j = 0 := by
    apply Fin.val_injective
    simpa using Nat.lt_one_iff.mp (by simpa using hj)
  subst hj0
  have h00 : orthogonalize_gs gsWitnessX 0 = gsWitnessX 0 :=
    gsPass_apply_zero gsWitnessX (2 - 1) 0 rfl
  rw [h00]
  have heval : inner (gsWitnessX 0) (gsWitnessX 0) = ⟨1, 0⟩ := by
    simp [inner, gsWitnessX]
    ext <;> norm_num
  rw [heval]
  simp [Cq.ext_iff]

/-- C8: `orthogonalize_gs` signals a domain error (`ValueError`) if and only
if `ndim < 1`; when `ndim ≥ 1` the check passes and the computation proceeds
to produce the orthogonalized output. -/
theorem orthogonalize_gs_checked_error_iff {M N : ℕ} (ndim : ℕ)
    (x : Fin M → Fin N → Cq) :
    (orthogonalize_gs_checked ndim x = none ↔ ndim < 1) ∧
    (1 ≤ ndim → orthogonalize_gs_checked ndim x = some (orthogonalize_gs x)) := by
  refine ⟨?_, fun h => ?_⟩
  · by_cases h : ndim < 1 <;> simp [orthogonalize_gs_checked, h]
  · have hn : ¬ ndim < 1 := by omega
    simp [orthogonalize_gs_checked, hn]

/-- Witness for C8: with `ndim = 1` no error is raised and the result is the
orthogonalized array. -/
theorem orthogonalize_gs_checked_witness :
    orthogonalize_gs_checked 1 gsWitnessX = some (orthogonalize_gs gsWitnessX) :=
  (orthogonalize_gs_checked_error_iff 1 gsWitnessX).2 (by decide)

/-- C9: the first mode (index 0) of the output of `orthogonalize_gs` equals
the first mode of the input unchanged: the projection-subtraction loop starts
at index 1 and only ever writes to the mode it is processing. -/
theorem orthogonalize_gs_first_mode_unchanged {M N : ℕ}
    (x : Fin M → Fin N → Cq) (h : 0 < M) :
    orthogonalize_gs x ⟨0, h⟩ = x ⟨0, h⟩ :=
  gsPass_apply_zero x (M - 1) ⟨0, h⟩ rfl

/-- Witness for C9 on a concrete two-mode input. -/
theorem orthogonalize_gs_first_mode_unchanged_witness :
    orthogonalize_gs gsWitnessX ⟨0, by norm_num⟩ = gsWitnessX ⟨0, by norm_num⟩ :=
  orthogonalize_gs_first_mode_unchanged gsWitnessX (by norm_num)

/-! ## Eigen-decomposition orthogonalization (`orthogonalize_eig`, probe.py 80-117)

The code builds the lower triangle of the Hermitian Gram matrix `A`
(`A[i, j] = sum(conj(x[i]) * x[j])` for `j ≤ i`), calls the external
`cp.linalg.eigh` on it, and reconstructs
`x_new[nmodes - 1 - j] += vectors[i, j] * x[i]` over all `i, j`.  The
eigen-decomposition itself is an external library routine (not code of this
repository), so the eigenvector matrix `vectors` is taken as a parameter;
the energy theorem assumes it is unitary, exactly as the claim states. -/

/-- The lower triangle of the pairwise Gram matrix built by
`orthogonalize_eig` (the upper triangle of the numpy `cp.empty` buffer is
uninitialized, modelled as `none`). -/
def gramLower {M N : ℕ} (x : Fin M → Fin N → Cq) (i j : Fin M) : Option Cq :=
  if (j : ℕ) ≤ (i : ℕ) then some (inner (x i) (x j)) else none

/-- The output-mode reversal `nmodes - 1 - j` used to sort the new modes by
descending eigenvalue. -/
def revIdx {M : ℕ} (r : Fin M) : Fin M :=
  ⟨M - 1 - (r : ℕ), by have := r.isLt; omega⟩

/-- The reconstruction loop of `orthogonalize_eig`:
`x_new[nmodes - 1 - j] += vectors[i, j] * x[i]`, i.e. output mode `r` is the
`vectors`-weighted combination `∑ i, vectors[i, nmodes - 1 - r] * x[i]`. -/
def orthogonalize_eig {M N : ℕ} (vectors : Fin M → Fin M → Cq)
    (x : Fin M → Fin N → Cq) : Fin M → Fin N → Cq :=
  fun r k => ∑ i, vectors i (revIdx r) * x i k

theorem revIdx_involutive {M : ℕ} : Function.Involutive (revIdx (M := M)) := by
  intro r
  apply Fin.val_injective
  show M - 1 - (M - 1 - (r : ℕ)) = (r : ℕ)
  have := r.isLt
  omega

/-- Inner product of two linear combinations of the modes, expanded into the
Gram coefficients. -/
theorem inner_lincomb {M N : ℕ} (c d : Fin M → Cq) (x : Fin M → Fin N → Cq) :
    inner (fun k => ∑ i, c i * x i k) (fun k => ∑ i, d i * x i k) =
      ∑ i, ∑ i2, (conj (c i) * d i2) * inner (x i) (x i2) := by
  simp only [inner]
  have h1 : ∀ k, conj (∑ i, c i * x i k) = ∑ i, conj (c i) * conj (x i k) := by
    intro k
    rw [show conj (∑ i, c i * x i k) = conjHom (∑ i, c i * x i k) from rfl,
      map_sum]
    exact Finset.sum_congr rfl fun i _ => by rw [conjHom_apply, conj_mul]
  calc (∑ k, conj (∑ i, c i * x i k) * ∑ i2, d i2 * x i2 k)
      = ∑ k, ∑ i, ∑ i2, (conj (c i) * conj (x i k)) * (d i2 * x i2 k) := by
        refine Finset.sum_congr rfl fun k _ => ?_
        rw [h1 k, Finset.sum_mul_sum]
    _ = ∑ i, ∑ k, ∑ i2, (conj (c i) * conj (x i k)) * (d i2 * x i2 k) :=
        Finset.sum_comm
    _ = ∑ i, ∑ i2, ∑ k, (conj (c i) * conj (x i k)) * (d i2 * x i2 k) :=
        Finset.sum_congr rfl fun i _ => Finset.sum_comm
    _ = ∑ i, ∑ i2, (conj (c i) * d i2) * ∑ k, conj (x i k) * x i2 k := by
        refine Finset.sum_congr rfl fun i _ => Finset.sum_congr rfl fun i2 _ => ?_
        rw [Finset.mul_sum]
        exact Finset.sum_congr rfl fun k _ => by ring

/-- C5: under the hypothesis that the eigenvector matrix returned by the
eigen-decomposition is unitary (`V Vᴴ = I`, stated row-wise), the output of
`orthogonalize_eig` carries the same total energy as the input: the sum over
all modes of the squared norm (self inner product) is preserved.  The output
array has the same shape as the input by construction (`cp.zeros_like(x)`),
which the embedding records in the return type `Fin M → Fin N → Cq`. -/
theorem orthogonalize_eig_energy {M N : ℕ} (vectors : Fin M → Fin M → Cq)
    (x : Fin M → Fin N → Cq)
    (hU : ∀ i i2 : Fin M, (∑ j, vectors i j * conj (vectors i2 j)) =
      if i = i2 then 1 else 0) :
    (∑ r, inner (orthogonalize_eig vectors x r) (orthogonalize_eig vectors x r)) =
      ∑ i, inner (x i) (x i) := by
  have hout : ∀ r, inner (orthogonalize_eig vectors x r)
      (orthogonalize_eig vectors x r) =
      ∑ i, ∑ i2, (conj (vectors i (revIdx r)) * vectors i2 (revIdx r)) *
        inner (x i) (x i2) :=
    fun r => inner_lincomb (fun i => vectors i (revIdx r))
      (fun i => vectors i (revIdx r)) x
  calc (∑ r, inner (orthogonalize_eig vectors x r) (orthogonalize_eig vectors x r))
      = ∑ r, ∑ i, ∑ i2, (conj (vectors i (revIdx r)) * vectors i2 (revIdx r)) *
          inner (x i) (x i2) := Finset.sum_congr rfl fun r _ => hout r
    _ = ∑ j, ∑ i, ∑ i2, (conj (vectors i j) * vectors i2 j) *
          inner (x i) (x i2) :=
        Fintype.sum_bijective revIdx revIdx_involutive.bijective _ _ fun r => rfl
    _ = ∑ i, ∑ j, ∑ i2, (conj (vectors i j) * vectors i2 j) *
          inner (x i) (x i2) := Finset.sum_comm
    _ = ∑ i, ∑ i2, ∑ j, (conj (vectors i j) * vectors i2 j) *
          inner (x i) (x i2) :=
        Finset.sum_congr rfl fun i _ => Finset.sum_comm
    _ = ∑ i, ∑ i2, (if i2 = i then (1 : Cq) else 0) * inner (x i) (x i2) := by
        refine Finset.sum_congr rfl fun i _ => Finset.sum_congr rfl fun i2 _ => ?_
        rw [← Finset.sum_mul, ← hU i2 i]
        congr 1
        exact Finset.sum_congr rfl fun j _ => by ring
    _ = ∑ i, inner (x i) (x i) := by
        refine Finset.sum_congr rfl fun i _ => ?_
        simp [ite_mul]

/-- Concrete one-mode eigenvector matrix (the identity) and probe used to
instantiate the energy theorem. -/
def eigWitnessV : Fin 1 → Fin 1 → Cq := fun _ _ => ⟨1, 0⟩

/-- Concrete one-mode probe input for the energy theorem. -/
def eigWitnessX : Fin 1 → Fin 1 → Cq := fun _ _ => ⟨2, 3⟩

/-- Witness for C5 with the identity eigenvector matrix. -/
theorem orthogonalize_eig_energy_witness :
    (∑ r, inner (orthogonalize_eig eigWitnessV eigWitnessX r)
      (orthogonalize_eig eigWitnessV eigWitnessX r)) =
      ∑ i, inner (eigWitnessX i) (eigWitnessX i) := by
  refine orthogonalize_eig_energy eigWitnessV eigWitnessX ?_
  intro i i2
  have h : i = i2 := Subsingleton.elim i i2
  subst h
  simp only [eigWitnessV, if_pos rfl]
  rw [Fin.sum_univ_one]
  ext <;> simp [Cq.conj]

/-! ## Probe mode initialization (`add_modes_random_phase`, probe.py 5-34)

The code copies mode `m` for `m < probe.shape[-3]` and otherwise multiplies
the first mode by two 1-D random phase ramps of length `pw = probe.shape[-1]`
(one broadcast along each transverse axis).  The leading batch axes are
dropped; the patch is `pw × pw` (the code builds both ramps with length `pw`).
The complex exponential ramps `shift[0]`, `shift[1]`, freshly sampled for each
added mode, are transcendental, so they enter the embedding as parameters
`s0 m`, `s1 m`; in exact arithmetic every value of such a ramp has unit
modulus.  `hM0` is the documented precondition `M > 0` (with `M0 = 0` the read
of `probe[..., 0, :, :]` in the else-branch would raise an `IndexError`). -/

/-- `add_modes_random_phase` on one batch element: mode `m` of the output is
the copied input mode for `m < M0` and the phase-shifted first mode
(`probe[..., 0, :, :] * shift[0][None] * shift[1][:, None]`) otherwise. -/
def add_modes_random_phase {M0 pw : ℕ} (probe : Fin M0 → Fin pw → Fin pw → Cq)
    (nmodes : ℕ) (s0 s1 : ℕ → Fin pw → Cq) (hM0 : 0 < M0) :
    Fin nmodes → Fin pw → Fin pw → Cq :=
  fun m r c =>
    if h : (m : ℕ) < M0 then probe ⟨m, h⟩ r c
    else probe ⟨0, hM0⟩ r c * s0 m c * s1 m r

/-- C6: with target mode count equal to the source count `M0`, every output
element equals the corresponding input element; with target count
`nmodes > M0`, the output modes at indices `0 .. M0 - 1` equal the
corresponding input modes exactly. -/
theorem add_modes_random_phase_copies {M0 pw : ℕ}
    (probe : Fin M0 → Fin pw → Fin pw → Cq) (s0 s1 : ℕ → Fin pw → Cq)
    (hM0 : 0 < M0) :
    (∀ m : Fin M0, add_modes_random_phase probe M0 s0 s1 hM0 m = probe m) ∧
    (∀ nmodes : ℕ, M0 < nmodes → ∀ m : Fin nmodes, ∀ hm : (m : ℕ) < M0,
      add_modes_random_phase probe nmodes s0 s1 hM0 m = probe ⟨m, hm⟩) := by
  constructor
  · intro m
    funext r c
    simp only [add_modes_random_phase]
    rw [dif_pos m.isLt, Fin.eta]
  · intro nmodes _ m hm
    funext r c
    simp only [add_modes_random_phase]
    rw [dif_pos hm]

/-- Concrete one-mode probe used to instantiate the mode-initialization
theorems. -/
def probeW : Fin 1 → Fin 1 → Fin 1 → Cq := fun _ _ _ => ⟨3, 4⟩

/-- Concrete unit-modulus phase factor (`i`, of squared magnitude 1). -/
def shiftW : ℕ → Fin 1 → Cq := fun _ _ => ⟨0, 1⟩

/-- Witness for C6: both the equal-count copy and the prefix copy on concrete
inputs. -/
theorem add_modes_random_phase_copies_witness :
    add_modes_random_phase probeW 1 shiftW shiftW (by norm_num) 0 = probeW 0 ∧
    add_modes_random_phase probeW 2 shiftW shiftW (by norm_num) 0 =
      probeW ⟨0, by norm_num⟩ :=
  ⟨(add_modes_random_phase_copies probeW shiftW shiftW (by norm_num)).1 0,
   (add_modes_random_phase_copies probeW shiftW shiftW (by norm_num)).2 2
     (by norm_num) 0 (by norm_num)⟩

/-- C7: every added mode (index `≥ M0`) has at every pixel the same squared
magnitude as mode 0 of the input probe, for any values of the random phase
factors, provided each phase-ramp value has unit modulus (true of the complex
exponentials the code builds). -/
theorem add_modes_random_phase_magnitude {M0 pw : ℕ}
    (probe : Fin M0 → Fin pw → Fin pw → Cq) (nmodes : ℕ)
    (s0 s1 : ℕ → Fin pw → Cq) (hM0 : 0 < M0)
    (hs0 : ∀ m c, Cq.normSq (s0 m c) = 1) (hs1 : ∀ m r, Cq.normSq (s1 m r) = 1)
    (m : Fin nmodes) (hm : M0 ≤ (m : ℕ)) (r c : Fin pw) :
    Cq.normSq (add_modes_random_phase probe nmodes s0 s1 hM0 m r c) =
      Cq.normSq (probe ⟨0, hM0⟩ r c) := by
  simp only [add_modes_random_phase]
  rw [dif_neg (by omega), Cq.normSq_mul, Cq.normSq_mul, hs0, hs1, mul_one,
    mul_one]

/-- Witness for C7 on concrete inputs (phase factor `i`). -/
theorem add_modes_random_phase_magnitude_witness :
    Cq.normSq (add_modes_random_phase probeW 2 shiftW shiftW (by norm_num) 1 0 0) =
      Cq.normSq (probeW ⟨0, by norm_num⟩ 0 0) := by
  refine add_modes_random_phase_magnitude probeW 2 shiftW shiftW (by norm_num)
    ?_ ?_ 1 (by decide) 0 0
  · intro m c
    simp [shiftW, Cq.normSq]
  · intro m r
    simp [shiftW, Cq.normSq]

/-- C10: with target count `0 < nmodes < M0` (excluded by the spec's
precondition `M ≥ M0`), `add_modes_random_phase` silently truncates: the
output has exactly `nmodes` modes and they equal the first `nmodes` input
modes. -/
theorem add_modes_random_phase_truncates {M0 pw : ℕ}
    (probe : Fin M0 → Fin pw → Fin pw → Cq) (nmodes : ℕ)
    (s0 s1 : ℕ → Fin pw → Cq) (hM0 : 0 < M0) (_hpos : 0 < nmodes)
    (hlt : nmodes < M0) (m : Fin nmodes) :
    add_modes_random_phase probe nmodes s0 s1 hM0 m =
      probe ⟨m, Nat.lt_trans m.isLt hlt⟩ := by
  funext r c
  simp only [add_modes_random_phase]
  rw [dif_pos (Nat.lt_trans m.isLt hlt)]

/-- Concrete two-mode probe used to instantiate the truncation theorem. -/
def probeW2 : Fin 2 → Fin 1 → Fin 1 → Cq :=
  fun m _ _ => if (m : ℕ) = 0 then ⟨1, 2⟩ else ⟨5, 6⟩

/-- Witness for C10 on a concrete two-mode probe truncated to one mode. -/
theorem add_modes_random_phase_truncates_witness :
    add_modes_random_phase probeW2 1 shiftW shiftW (by norm_num) 0 =
      probeW2 ⟨0, by norm_num⟩ :=
  add_modes_random_phase_truncates probeW2 1 shiftW shiftW (by norm_num)
    (by norm_num) (by norm_num) 0

/-! ## ePIE wavefront update (`_update_wavefront`, epie.py 108-141)

The optical operators (`op.propagation.fwd/adj`, the patch extraction, the
cost metric) and the square root are external collaborators; they enter the
embedding as opaque function parameters.  Arrays are indexed by scan position
`Fin P`, probe mode `Fin M` and detector pixel `Fin K` (the two detector axes
flattened; the singleton eigen-probe axis of the numpy shape `(P, 1, M, h, w)`
is dropped).  The intensity sum over `axis = 1 .. ndim-3` is the sum over
that singleton axis and the mode axis, i.e. over modes. -/

/-- `_update_wavefront` from the far-plane propagation on: propagate the
nearplane, form the per-pixel intensity as the sum over modes of squared
magnitudes, compute the cost, rescale each pixel of the far-plane field by
`sqrt(data) / (sqrt(intensity) + 1e-9)`, back-propagate, and crop
(`farplane[..., pad:end, pad:end]`, the opaque `crop`). -/
def update_wavefront {P M K K2 : ℕ}
    (propF propA : (Fin P → Fin M → Fin K → Cq) → (Fin P → Fin M → Fin K → Cq))
    (crop : (Fin P → Fin M → Fin K → Cq) → Fin P → Fin M → Fin K2 → Cq)
    (costFn : (Fin P → Fin K → ℚ) → (Fin P → Fin K → ℚ) → ℚ)
    (sqrtFn : ℚ → ℚ) (data : Fin P → Fin K → ℚ)
    (nearplane : Fin P → Fin M → Fin K → Cq) :
    (Fin P → Fin M → Fin K2 → Cq) × ℚ :=
  let farplane := propF nearplane
  let intensity : Fin P → Fin K → ℚ :=
    fun p px => ∑ m, Cq.normSq (farplane p m px)
  let cost := costFn data intensity
  let farplane2 := fun p m px => farplane p m px *
    Cq.ofRat (sqrtFn (data p px) / (sqrtFn (intensity p px) + 1 / 1000000000))
  (crop (propA farplane2), cost)

/-- Written from the spec's words: "sum squared magnitudes across all modes
to obtain the predicted intensity at each detector pixel". -/
def specPredictedIntensity {P M K : ℕ} (farplane : Fin P → Fin M → Fin K → Cq)
    (p : Fin P) (px : Fin K) : ℚ :=
  ∑ m, Cq.normSq (farplane p m px)

/-- Written from the spec's words: "rescaling the measurement-domain field at
every pixel by the ratio of the square root of measured intensity to the
square root of predicted intensity, with a small additive epsilon (1e-9) in
the denominator". -/
def specRescaleFactor (sqrtFn : ℚ → ℚ) (measured predicted : ℚ) : ℚ :=
  sqrtFn measured / (sqrtFn predicted + 1 / 1000000000)

/-- C3: the wavefront update computes the predicted intensity exactly as the
spec's per-pixel mode-sum of squared magnitudes, and rescales the
measurement-domain field at every pixel by exactly
`sqrt(measured) / (sqrt(predicted) + 1e-9)` before back-propagating (and the
returned cost is the cost metric applied to that same predicted intensity). -/
theorem update_wavefront_matches_spec {P M K K2 : ℕ}
    (propF propA : (Fin P → Fin M → Fin K → Cq) → (Fin P → Fin M → Fin K → Cq))
    (crop : (Fin P → Fin M → Fin K → Cq) → Fin P → Fin M → Fin K2 → Cq)
    (costFn : (Fin P → Fin K → ℚ) → (Fin P → Fin K → ℚ) → ℚ)
    (sqrtFn : ℚ → ℚ) (data : Fin P → Fin K → ℚ)
    (nearplane : Fin P → Fin M → Fin K → Cq) :
    update_wavefront propF propA crop costFn sqrtFn data nearplane =
      (crop (propA (fun p m px => propF nearplane p m px *
        Cq.ofRat (specRescaleFactor sqrtFn (data p px)
          (specPredictedIntensity (propF nearplane) p px)))),
       costFn data (fun p px => specPredictedIntensity (propF nearplane) p px)) :=
  rfl

/-! ## ePIE nearplane gradients (`_get_nearplane_gradients`, epie.py 207-244)

`common_grad_psi` is assigned only inside `if recover_psi:` and
`common_grad_probe` only inside `if recover_probe:`, yet the final
`return common_grad_psi, common_grad_probe` always reads both locals.  With
either flag `False` the function therefore raises `UnboundLocalError`; the
raise is modelled as `none`.  The adjoint patch operator (scatter-add into
object space, with the scan positions baked in) is the opaque `patchAdj`. -/

/-- `max_amplitude` (epie.py 144-146): the maximum of the absolute square
over the (flattened, nonempty) pixel axis. -/
def max_amplitude {K : ℕ} [NeZero K] (x : Fin K → Cq) : ℚ :=
  Finset.univ.sup'
    ⟨⟨0, Nat.pos_of_ne_zero (NeZero.ne K)⟩, Finset.mem_univ _⟩
    fun k => Cq.normSq (x k)

/-- `_get_nearplane_gradients` for probe mode `m`: the residual
`diff = nearplane[m] - probe[m] * patches`, the object gradient
`conj(probe[m]) * diff / max_amplitude(probe[m])` accumulated through the
adjoint patch operator, and the probe gradient
`conj(patches) * diff / max_amplitude(patches)` summed over scan positions.
Returns `none` when the Python code would raise `UnboundLocalError`. -/
def get_nearplane_gradients {P M K Np : ℕ} [NeZero K]
    (patchAdj : (Fin P → Fin K → Cq) → Fin Np → Cq)
    (nearplane : Fin P → Fin M → Fin K → Cq)
    (patches : Fin P → Fin K → Cq)
    (probe : Fin M → Fin K → Cq)
    (m : Fin M) (recover_psi recover_probe : Bool) :
    Option ((Fin Np → Cq) × (Fin K → Cq)) :=
  let diff := fun p k => nearplane p m k - probe m k * patches p k
  if recover_psi then
    let grad_psi := fun p k =>
      conj (probe m k) * diff p k / Cq.ofRat (max_amplitude (probe m))
    let common_grad_psi := patchAdj grad_psi
    if recover_probe then
      let grad_probe := fun p k =>
        conj (patches p k) * diff p k / Cq.ofRat (max_amplitude (patches p))
      some (common_grad_psi, fun k => ∑ p, grad_probe p k)
    else none
  else none

/-- C2 fails on the code: `_get_nearplane_gradients` raises (returns `none`)
exactly when either recovery flag is disabled, because the disabled branch's
local is still read by the `return` statement; the update never "completes
normally, skipping the disabled branch". -/
theorem get_nearplane_gradients_none_iff {P M K Np : ℕ} [NeZero K]
    (patchAdj : (Fin P → Fin K → Cq) → Fin Np → Cq)
    (nearplane : Fin P → Fin M → Fin K → Cq)
    (patches : Fin P → Fin K → Cq)
    (probe : Fin M → Fin K → Cq)
    (m : Fin M) (recover_psi recover_probe : Bool) :
    (get_nearplane_gradients patchAdj nearplane patches probe m
      recover_psi recover_probe = none) ↔
      ¬(recover_psi = true ∧ recover_probe = true) := by
  cases recover_psi <;> cases recover_probe <;>
    simp [get_nearplane_gradients]

/-- Concrete adjoint patch operator on a one-pixel, one-position geometry. -/
def wPatchAdj : (Fin 1 → Fin 1 → Cq) → Fin 1 → Cq := fun g => g 0

/-- Concrete nearplane estimate. -/
def wNearplane : Fin 1 → Fin 1 → Fin 1 → Cq := fun _ _ _ => ⟨1, 1⟩

/-- Concrete object patches. -/
def wPatches : Fin 1 → Fin 1 → Cq := fun _ _ => ⟨1, 0⟩

/-- Concrete probe. -/
def wProbe : Fin 1 → Fin 1 → Cq := fun _ _ => ⟨2, 0⟩

/-- Witness for C2 at the failing input `recover_psi = False`: the call
errors (returns `none`). -/
theorem get_nearplane_gradients_none_iff_witness :
    (get_nearplane_gradients wPatchAdj wNearplane wPatches wProbe 0
      false true = none) ↔ ¬(false = true ∧ true = true) :=
  get_nearplane_gradients_none_iff wPatchAdj wNearplane wPatches wProbe 0
    false true

/-! ## ePIE nearplane update (`_update_nearplane`, epie.py 149-192)

The worker pool (`comm.pool.map`, `comm.reduce`, `comm.pool.bcast`) is the
external parallel fabric: the per-worker gradient results of the `map` over
`_get_nearplane_gradients` enter as a function `gradFn` of the current
object/probe state, `reduce` is the sum over the worker index `Fin W`, and
the broadcast re-replication is implicit in the single canonical state.
`scanCounts w` is `scan_[w].shape[0]`, the number of scan positions in
worker `w`'s shard; the code divides the step by `scan_[0].shape[0]`
(worker 0 only). -/

/-- The body of the `for m in range(probe[0].shape[-3])` loop: compute the
per-worker gradients from the current state, then
`psi[0] += step_length * (reduced psi gradient)` and
`probe[0][..., [m], :, :] += step_length * (reduced probe gradient)`,
each guarded by its recovery flag. -/
def update_nearplane_mode {W M Np K : ℕ} (step : ℚ)
    (gradFn : (Fin Np → Cq) → (Fin M → Fin K → Cq) → Fin M → Fin W →
      (Fin Np → Cq) × (Fin K → Cq))
    (recover_psi recover_probe : Bool)
    (st : (Fin Np → Cq) × (Fin M → Fin K → Cq)) (m : Fin M) :
    (Fin Np → Cq) × (Fin M → Fin K → Cq) :=
  let grads := fun w => gradFn st.1 st.2 m w
  let psi2 := if recover_psi then
      fun k => st.1 k + Cq.ofRat step * ∑ w, (grads w).1 k
    else st.1
  let probe2 := if recover_probe then
      fun m2 k => if m2 = m then
          st.2 m2 k + Cq.ofRat step * ∑ w, (grads w).2 k
        else st.2 m2 k
    else st.2
  (psi2, probe2)

/-- The mode loop, processed strictly in order `0 .. n-1` (Gauss-Seidel:
each mode's gradients are computed from the state left by earlier modes). -/
def update_nearplane_loop {W M Np K : ℕ} (step : ℚ)
    (gradFn : (Fin Np → Cq) → (Fin M → Fin K → Cq) → Fin M → Fin W →
      (Fin Np → Cq) × (Fin K → Cq))
    (recover_psi recover_probe : Bool) :
    ℕ → ((Fin Np → Cq) × (Fin M → Fin K → Cq)) →
      ((Fin Np → Cq) × (Fin M → Fin K → Cq))
  | 0, st => st
  | n + 1, st =>
    if h : n < M then
      update_nearplane_mode step gradFn recover_psi recover_probe
        (update_nearplane_loop step gradFn recover_psi recover_probe n st) ⟨n, h⟩
    else update_nearplane_loop step gradFn recover_psi recover_probe n st

/-- `_update_nearplane`: divide the step length by `scan_[0].shape[0]`
(worker 0's scan-position count) and run the mode loop over all `M` modes. -/
def update_nearplane {W M Np K : ℕ} [NeZero W] (step_length : ℚ)
    (scanCounts : Fin W → ℕ)
    (gradFn : (Fin Np → Cq) → (Fin M → Fin K → Cq) → Fin M → Fin W →
      (Fin Np → Cq) × (Fin K → Cq))
    (recover_psi recover_probe : Bool)
    (st : (Fin Np → Cq) × (Fin M → Fin K → Cq)) :
    (Fin Np → Cq) × (Fin M → Fin K → Cq) :=
  update_nearplane_loop (step_length / (scanCounts 0 : ℚ)) gradFn
    recover_psi recover_probe M st

/-- C4, as amended: at every mode `m` the applied increments are
`psi += (step_length / scanCounts 0) * (sum of per-worker psi gradients)` and
`probe[m] += (step_length / scanCounts 0) * (sum of per-worker probe
gradients)`, where `scanCounts 0` is the number of scan positions held by
worker 0 — not the total across all workers. -/
theorem update_nearplane_mode_increments {W M Np K : ℕ} [NeZero W]
    (step_length : ℚ) (scanCounts : Fin W → ℕ)
    (gradFn : (Fin Np → Cq) → (Fin M → Fin K → Cq) → Fin M → Fin W →
      (Fin Np → Cq) × (Fin K → Cq))
    (st : (Fin Np → Cq) × (Fin M → Fin K → Cq)) (m : Fin M) :
    (∀ k, (update_nearplane_mode (step_length / (scanCounts 0 : ℚ)) gradFn
        true true st m).1 k =
      st.1 k + Cq.ofRat (step_length / (scanCounts 0 : ℚ)) *
        ∑ w, (gradFn st.1 st.2 m w).1 k) ∧
    (∀ k, (update_nearplane_mode (step_length / (scanCounts 0 : ℚ)) gradFn
        true true st m).2 m k =
      st.2 m k + Cq.ofRat (step_length / (scanCounts 0 : ℚ)) *
        ∑ w, (gradFn st.1 st.2 m w).2 k) := by
  constructor <;> intro k <;> simp [update_nearplane_mode]

/-- Two workers, one scan position each (total batch size 2). -/
def cexScan : Fin 2 → ℕ := fun _ => 1

/-- Constant per-worker gradients: every worker reports gradient `1`. -/
def cexGradFn : (Fin 1 → Cq) → (Fin 1 → Fin 1 → Cq) → Fin 1 → Fin 2 →
    (Fin 1 → Cq) × (Fin 1 → Cq) :=
  fun _ _ _ _ => (fun _ => ⟨1, 0⟩, fun _ => ⟨1, 0⟩)

/-- Zero initial object and probe. -/
def cexState : (Fin 1 → Cq) × (Fin 1 → Fin 1 → Cq) := (fun _ => 0, fun _ _ => 0)

/-- Witness for C4's amended increment relation on concrete inputs. -/
theorem update_nearplane_mode_increments_witness :
    (update_nearplane_mode ((1 : ℚ) / (cexScan 0 : ℚ)) cexGradFn true true
      cexState 0).1 0 =
      cexState.1 0 + Cq.ofRat ((1 : ℚ) / (cexScan 0 : ℚ)) *
        ∑ w, (cexGradFn cexState.1 cexState.2 0 w).1 0 :=
  (update_nearplane_mode_increments 1 cexScan cexGradFn cexState 0).1 0

/-- Counterexample to C4 as stated: with two workers holding one scan
position each, the object increment applied by the nearplane update (step
`1 / scan_[0].shape[0] = 1`) differs from the claimed
`(step_length / total batch size) * reduced gradient = (1/2) * 2`. -/
theorem update_nearplane_batch_size_cex :
    (update_nearplane (W := 2) 1 cexScan cexGradFn true true cexState).1 0 ≠
      cexState.1 0 + Cq.ofRat (1 / ((∑ w, cexScan w : ℕ) : ℚ)) *
        ∑ w, (cexGradFn cexState.1 cexState.2 0 w).1 0 := by
  have hL : (update_nearplane (W := 2) 1 cexScan cexGradFn true true
      cexState).1 0 = ⟨2, 0⟩ := by
    show (update_nearplane_loop ((1 : ℚ) / (cexScan 0 : ℚ)) cexGradFn
      true true 1 cexState).1 0 = (⟨2, 0⟩ : Cq)
    apply Cq.ext
    · simp [update_nearplane_loop, update_nearplane_mode, cexScan, cexGradFn,
        cexState, Fin.sum_univ_two]
    · simp [update_nearplane_loop, update_nearplane_mode, cexScan, cexGradFn,
        cexState, Fin.sum_univ_two]
  have hR : cexState.1 0 + Cq.ofRat (1 / ((∑ w, cexScan w : ℕ) : ℚ)) *
      ∑ w, (cexGradFn cexState.1 cexState.2 0 w).1 0 = ⟨1, 0⟩ := by
    apply Cq.ext
    · simp [cexScan, cexGradFn, cexState, Fin.sum_univ_two]
    · simp [cexScan, cexGradFn, cexState, Fin.sum_univ_two]
  rw [hL, hR]
  intro h
  have := congrArg Cq.re h
  norm_num at this

end Tike
